import Mathlib

/-!
# Verification of the TLD-list acquisition/cache subsystem

Shallow embedding of the TLD subsystem of `image-downloader.py`
(`tlds_load` / `tlds_update`), together with the library routines the
script calls: Python string primitives (`str.splitlines`, `str.strip`,
`str.lower`, file-line iteration with universal newlines) and the
standard-library codecs used by `tld.encode("ascii").decode("idna")`
(the `idna` codec built on the `punycode` codec).

Python strings are modelled as `List Char`.  The Unicode-dependent
primitives (`lower`, the `nameprep` step of the `idna` codec) are
modelled on the Basic Latin and Latin-1 repertoire that the registry
document and all concrete inputs of this development live in; outside
that repertoire the case mapping is the identity, `NFKC` is the
identity, and the `nameprep` prohibition tables are not represented
(prohibited characters are instead rejected where they would first
arise, see `insSortGo`).
-/

set_option maxRecDepth 4000

namespace ImgDl

/-! ## Python string primitives -/

/-- Line boundaries recognised by Python `str.splitlines`: `"\\n"`,
`"\\r"`, `"\\v"`, `"\\f"`, U+001C–U+001E, U+0085, U+2028, U+2029
(compared by code point). -/
def pyIsLineBoundary (c : Char) : Bool :=
  let n := c.toNat
  n = 0xa ∨ n = 0xd ∨ n = 0xb ∨ n = 0xc ∨
  (0x1c ≤ n ∧ n ≤ 0x1e) ∨ n = 0x85 ∨ n = 0x2028 ∨ n = 0x2029

/-- Whitespace stripped by Python `str.strip()` (Unicode whitespace,
compared by code point). -/
def pyIsSpace (c : Char) : Bool :=
  let n := c.toNat
  n = 0x20 ∨ n = 0x9 ∨ n = 0xa ∨ n = 0xb ∨ n = 0xc ∨ n = 0xd ∨
  (0x1c ≤ n ∧ n ≤ 0x1f) ∨ n = 0x85 ∨ n = 0xa0 ∨ n = 0x1680 ∨
  (0x2000 ≤ n ∧ n ≤ 0x200a) ∨
  n = 0x2028 ∨ n = 0x2029 ∨ n = 0x202f ∨ n = 0x205f ∨ n = 0x3000

/-- Python `str.splitlines()`: split at any line boundary, treating
`"\r\n"` as a single boundary, with no trailing empty line. -/
def pySplitlines : List Char → List (List Char)
  | [] => []
  | [c] => if pyIsLineBoundary c then [[]] else [[c]]
  | c :: d :: rest =>
    if c = '\r' ∧ d = '\n' then [] :: pySplitlines rest
    else if pyIsLineBoundary c then [] :: pySplitlines (d :: rest)
    else
      match pySplitlines (d :: rest) with
      | [] => [[c]]
      | l :: ls => (c :: l) :: ls

/-- Python `str.strip()`: drop leading and trailing whitespace. -/
def pyStrip (cs : List Char) : List Char :=
  ((cs.dropWhile pyIsSpace).reverse.dropWhile pyIsSpace).reverse

/-- Python `str.lower()` on the Basic Latin / Latin-1 repertoire:
`A`–`Z` and `À`–`Þ` (except `×`) shift down by 0x20; other characters
are left unchanged (identity outside the modelled repertoire). -/
def pyCharLower (c : Char) : Char :=
  let n := c.toNat
  if 0x41 ≤ n ∧ n ≤ 0x5a then Char.ofNat (n + 0x20)
  else if 0xc0 ≤ n ∧ n ≤ 0xde ∧ n ≠ 0xd7 then Char.ofNat (n + 0x20)
  else c

/-- Python `str.lower()` (characterwise on the modelled repertoire). -/
def pyLower (cs : List Char) : List Char := cs.map pyCharLower

/-- ASCII uppercasing as done by `bytes.upper()`. -/
def asciiUpper (c : Char) : Char :=
  let n := c.toNat
  if 0x61 ≤ n ∧ n ≤ 0x7a then Char.ofNat (n - 0x20) else c

/-- `bytes` of an ASCII-only string: all code points below 128. -/
def allAscii (cs : List Char) : Bool := cs.all (fun c => c.toNat < 128)

/-! ## The `punycode` codec (CPython `encodings/punycode.py`) -/

/-- Error raised by the codecs while processing one label
(`UnicodeError` in Python; a single kind suffices for this model). -/
inductive UniFail where
  | decodeError
  deriving DecidableEq, Repr

/-- Punycode digit value of an (uppercased) extended character:
`A`–`Z` map to 0–25 and `0`–`9` map to 26–35; anything else is
invalid (`decode_generalized_number`, strict errors). -/
def puDigit (n : Nat) : Option Nat :=
  if 0x41 ≤ n ∧ n ≤ 0x5a then some (n - 0x41)
  else if 0x30 ≤ n ∧ n ≤ 0x39 then some (n - 22)
  else none

/-- The threshold function `T(j, bias)` of RFC 3492 with the standard
parameters (`tmin = 1`, `tmax = 26`, `base = 36`). -/
def tFun (j bias : Nat) : Nat :=
  let res : Int := 36 * ((j : Int) + 1) - (bias : Int)
  if res < 1 then 1 else if 26 < res then 26 else res.toNat

/-- The `while delta > 455` loop of `adapt`.  The fuel only bounds the
iteration count: each pass divides `delta` by 35, so `delta + 1`
iterations always suffice and the fuel-exhausted branch is dead. -/
def adaptLoop : Nat → Nat → Nat → Nat
  | 0, _, divisions => divisions
  | fuel + 1, delta, divisions =>
    if 455 < delta then adaptLoop fuel (delta / 35) (divisions + 36)
    else divisions + (36 * delta) / (delta + 38)

/-- Bias adaptation (`adapt`). -/
def adapt (delta : Nat) (first : Bool) (numchars : Nat) : Nat :=
  let d := if first then delta / 700 else delta / 2
  let d := d + d / numchars
  adaptLoop (d + 1) d 0

/-- One generalized variable-length integer, strict decoding
(`decode_generalized_number`): returns the decoded delta and the
remaining extended characters. -/
def dgnGo : List Char → Nat → Nat → Nat → Nat → Except UniFail (Nat × List Char)
  | [], _, _, _, _ => .error .decodeError
  | ch :: rest, result, w, j, bias =>
    match puDigit ch.toNat with
    | none => .error .decodeError
    | some digit =>
      let t := tFun j bias
      let result := result + digit * w
      if digit < t then .ok (result, rest)
      else dgnGo rest result (w * (36 - t)) (j + 1) bias

/-- The decoding loop of `insertion_sort` (strict errors).  The fuel
only bounds the iteration count: every call to `dgnGo` consumes at
least one extended character, so fuel `ext.length + 1` always
suffices and the fuel-exhausted branch is dead.  Code points above
`0x10FFFF` are rejected as in the source; surrogate code points
(which `chr` accepts but the `nameprep` prohibition table C.5 of the
subsequent `ToASCII` round-trip always rejects) are rejected here,
where they would first arise. -/
def insSortGo : Nat → List Char → List Char → Nat → Int → Nat → Bool → Except UniFail (List Char)
  | _, [], base, _, _, _, _ => .ok base
  | 0, _ :: _, _, _, _, _, _ => .error .decodeError
  | fuel + 1, e0 :: ext, base, charN, pos, bias, first =>
    match dgnGo (e0 :: ext) 0 1 0 bias with
    | .error e => .error e
    | .ok (delta, rest) =>
      let pos := pos + (delta : Int) + 1
      let charN := charN + (pos / ((base.length : Int) + 1)).toNat
      if 0x10ffff < charN then .error .decodeError
      else if 0xd800 ≤ charN ∧ charN ≤ 0xdfff then .error .decodeError
      else
        let pos2 : Nat := (pos % ((base.length : Int) + 1)).toNat
        let base2 := base.take pos2 ++ [Char.ofNat charN] ++ base.drop pos2
        insSortGo fuel rest base2 charN (pos2 : Int)
          (adapt delta first base2.length) false

/-- Index of the last `-` in the string, if any (`text.rfind(b"-")`). -/
def rfindDash (cs : List Char) : Option Nat :=
  match cs.reverse.findIdx? (fun c => c = '-') with
  | none => none
  | some i => some (cs.length - 1 - i)

/-- `punycode_decode` with strict errors: split at the last `-` into
basic and extended parts, uppercase the extended part, and run the
insertion sort. -/
def punycodeDecode (text : List Char) : Except UniFail (List Char) :=
  match rfindDash text with
  | none => insSortGo (text.length + 1) (text.map asciiUpper) [] 0x80 (-1) 72 true
  | some p =>
      insSortGo (text.length + 1) ((text.drop (p + 1)).map asciiUpper) (text.take p) 0x80 (-1) 72 true

/-- The punycode digit alphabet (`digits`). -/
def puDigits : List Char := ['a', 'b', 'c', 'd', 'e', 'f', 'g', 'h', 'i', 'j', 'k', 'l', 'm', 'n', 'o', 'p', 'q', 'r', 's', 't', 'u', 'v', 'w', 'x', 'y', 'z', '0', '1', '2', '3', '4', '5', '6', '7', '8', '9']

/-- The digit-emitting loop of `generate_generalized_integer`.  The
fuel only bounds the iteration count: the loop continues only while
`t ≤ N` with `t ≥ 1` and replaces `N` by `(N - t) / (36 - t) < N`, so
fuel `N + 1` always suffices and the fuel-exhausted branch is dead. -/
def ggiGo : Nat → Nat → Nat → Nat → List Char
  | 0, _, _, _ => []
  | fuel + 1, n, bias, j =>
    let t := tFun j bias
    if n < t then [puDigits.getD n 'a']
    else puDigits.getD (t + (n - t) % (36 - t)) 'a' :: ggiGo fuel ((n - t) / (36 - t)) bias (j + 1)

/-- `generate_generalized_integer N bias`. -/
def generalizedInteger (n bias : Nat) : List Char := ggiGo (n + 1) n bias 0

/-- The loop of `generate_integers`: emit each delta, adapting the
bias after each one.  Deltas carry the `Int` arithmetic of
`insertion_unsort`; they are nonnegative for every actual input and
are converted at this boundary. -/
def genIntsGo (baselen : Nat) : List Int → Nat → Nat → List Char
  | [], _, _ => []
  | d :: ds, bias, points =>
    generalizedInteger d.toNat bias ++
      genIntsGo baselen ds (adapt d.toNat (points == 0) (baselen + points + 1)) (points + 1)

/-- `generate_integers baselen deltas` (initial bias 72). -/
def generateIntegers (baselen : Nat) (deltas : List Int) : List Char :=
  genIntsGo baselen deltas 72 0

/-- `selective_len str max`: number of characters below `max`. -/
def selectiveLen (text : List Char) (mx : Nat) : Nat :=
  (text.filter (fun c => c.toNat < mx)).length

/-- The per-character occurrence walk of `insertion_unsort`: one pass
over `text` replaying the successive `selective_find` calls for one
extended character `ch`, accumulating one delta per occurrence.
Returns the deltas and the final `oldindex`. -/
def iuGo (ch : Char) : List Char → Int → Int → Int → List Int × Int
  | [], _, oldindex, _ => ([], oldindex)
  | c :: rest, index, oldindex, delta =>
    if c = ch then
      let i := index + 1
      let d := delta + (i - oldindex)
      let (ds, oi) := iuGo ch rest i i 0
      ((d - 1) :: ds, oi)
    else if c.toNat < ch.toNat then iuGo ch rest (index + 1) oldindex delta
    else iuGo ch rest index oldindex delta

/-- The outer loop of `insertion_unsort` over the sorted extended
characters, threading `oldchar` and `oldindex`. -/
def iuChars (text : List Char) : List Char → Nat → Int → List Int
  | [], _, _ => []
  | ch :: cs, oldchar, oldindex =>
    let curlen := selectiveLen text ch.toNat
    let delta0 : Int := ((curlen : Int) + 1) * ((ch.toNat : Int) - (oldchar : Int))
    let (ds, oi) := iuGo ch text (-1) oldindex delta0
    ds ++ iuChars text cs ch.toNat oi

/-- `insertion_unsort text extended`. -/
def insertionUnsort (text extended : List Char) : List Int :=
  iuChars text extended 0x80 (-1)

/-- Insert into an ascending list (by code point). -/
def insAsc (c : Char) : List Char → List Char
  | [] => [c]
  | d :: ds => if c.toNat ≤ d.toNat then c :: d :: ds else d :: insAsc c ds

/-- Sort ascending by code point (`sorted` on a set of characters). -/
def sortAsc (cs : List Char) : List Char := cs.foldr insAsc []

/-- `punycode_encode`: segregate into basic and extended code points
(`segregate` keeps the basic ones in order and sorts the distinct
extended ones), unsort, generate the variable-length integers, and
join with `-` when a basic part is present. -/
def punycodeEncode (text : List Char) : List Char :=
  let base := text.filter (fun c => c.toNat < 128)
  let extended := sortAsc (text.filter (fun c => ¬ c.toNat < 128)).dedup
  let deltas := insertionUnsort text extended
  let ext2 := generateIntegers base.length deltas
  if base.isEmpty then ext2 else base ++ '-' :: ext2

/-! ## The `idna` codec (CPython `encodings/idna.py`) -/

/-- The ACE prefix `xn--`. -/
def xnSeq : List Char := ['x', 'n', '-', '-']

/-- The `nameprep` case-fold mapping (stringprep table B.2) on the
Basic Latin / Latin-1 repertoire: ASCII and Latin-1 capitals fold
down by 0x20, `µ` folds to Greek `μ`, `ß` folds to `ss`; identity
outside the modelled repertoire. -/
def foldB2 (c : Char) : List Char :=
  let n := c.toNat
  if 0x41 ≤ n ∧ n ≤ 0x5a then [Char.ofNat (n + 0x20)]
  else if 0xc0 ≤ n ∧ n ≤ 0xde ∧ n ≠ 0xd7 then [Char.ofNat (n + 0x20)]
  else if n = 0xb5 then [Char.ofNat 0x3bc]
  else if n = 0xdf then ['s', 's']
  else [c]

/-- `nameprep` on the modelled repertoire: the table B.2 fold; `NFKC`
is the identity there and the prohibition tables are handled as
described at `insSortGo`. -/
def nameprepR (cs : List Char) : List Char := (cs.map foldB2).flatten

/-- `ToASCII` of `encodings/idna.py` (`UseSTD3ASCIIRules` off): pass
short ASCII labels through, otherwise nameprep, re-check for ASCII,
reject an existing ACE prefix, and punycode-encode under `xn--`,
enforcing the 1–63 length bounds. -/
def toAsciiR (label : List Char) : Except UniFail (List Char) :=
  if allAscii label then
    if 0 < label.length ∧ label.length < 64 then .ok label else .error .decodeError
  else
    let l2 := nameprepR label
    if allAscii l2 then
      if 0 < l2.length ∧ l2.length < 64 then .ok l2 else .error .decodeError
    else if xnSeq.isPrefixOf l2 then .error .decodeError
    else
      let p := xnSeq ++ punycodeEncode l2
      if p.length < 64 then .ok p else .error .decodeError

/-- `ToUnicode` of `encodings/idna.py` on an ASCII label: reject
over-long labels, pass non-ACE labels through, otherwise strip the
`xn--` prefix, punycode-decode, and verify the `ToASCII` round-trip
against the lowercased original. -/
def toUnicodeR (label : List Char) : Except UniFail (List Char) :=
  if 1024 < label.length then .error .decodeError
  else if pyLower (label.take 4) = xnSeq then
    match punycodeDecode (label.drop 4) with
    | .error e => .error e
    | .ok result =>
      match toAsciiR result with
      | .error e => .error e
      | .ok label2 => if pyLower label = label2 then .ok result else .error .decodeError
  else .ok label

/-- `b in bs` substring test on byte strings. -/
def hasInfix (p : List Char) : List Char → Bool
  | [] => p.isEmpty
  | c :: rest => p.isPrefixOf (c :: rest) || hasInfix p rest

/-- `bytes.split(b".")`. -/
def pySplitDot : List Char → List (List Char)
  | [] => [[]]
  | c :: rest =>
    if c = '.' then [] :: pySplitDot rest
    else
      match pySplitDot rest with
      | [] => [[c]]
      | l :: ls => (c :: l) :: ls

/-- The label loop of the `idna` codec's `decode`: `ToUnicode` each
label in order, aborting at the first `UnicodeError`. -/
def toUniAll : List (List Char) → Except UniFail (List (List Char))
  | [] => .ok []
  | lab :: rest =>
    match toUnicodeR lab with
    | .error e => .error e
    | .ok out =>
      match toUniAll rest with
      | .error e => .error e
      | .ok outs => .ok (out :: outs)

/-- `bytes.decode("idna")` (the `Codec.decode` of
`encodings/idna.py`, strict errors, input already ASCII): empty input
and inputs without the ACE prefix pass through; otherwise split on
dots, `ToUnicode` each label, rejoin with `.`, preserving a trailing
dot. -/
def idnaDecode (input : List Char) : Except UniFail (List Char) :=
  if input.isEmpty then .ok []
  else if ¬ hasInfix xnSeq input then .ok input
  else
    let labels0 := pySplitDot input
    let ld :=
      if labels0.getLast? = some [] then (labels0.dropLast, ['.'])
      else (labels0, ([] : List Char))
    match toUniAll ld.1 with
    | .error e => .error e
    | .ok outs => .ok (List.intercalate ['.'] outs ++ ld.2)

/-- `tld.encode("ascii").decode("idna")`: the ASCII encode raises
`UnicodeEncodeError` on any code point of 128 or more, otherwise the
`idna` codec decodes. -/
def asciiIdna (tld : List Char) : Except UniFail (List Char) :=
  if allAscii tld then idnaDecode tld else .error .decodeError

/-! ## The normalization pass (the loop body of `tlds_update`) -/

/-- The body of the `for tld in r.text.splitlines()` loop of
`tlds_update` for one line: strip and lowercase; drop blank and `#`
lines; otherwise emit the label and, for an `xn--` label, also its
IDNA decoding. -/
def processLine (line : List Char) : Except UniFail (List (List Char)) :=
  let tld := pyLower (pyStrip line)
  if tld = [] ∨ ['#'].isPrefixOf tld then .ok []
  else if xnSeq.isPrefixOf tld then
    match asciiIdna tld with
    | .error e => .error e
    | .ok u => .ok [tld, u]
  else .ok [tld]

/-- The loop of `tlds_update` over the split lines: process each line
in order, accumulating the emitted labels, aborting at the first
raised `UnicodeError` (the partially built list is discarded, as the
exception discards the local `tlds`). -/
def processLines : List (List Char) → Except UniFail (List (List Char))
  | [] => .ok []
  | line :: rest =>
    match processLine line with
    | .error e => .error e
    | .ok out =>
      match processLines rest with
      | .error e => .error e
      | .ok outs => .ok (out ++ outs)

/-- The whole normalization pass of `tlds_update` over a registry
document. -/
def process (doc : List Char) : Except UniFail (List (List Char)) :=
  processLines (pySplitlines doc)

/-- Characters of a string literal. -/
def chars (s : String) : List Char := s.data

/-! ## The cache file and the effect model of `tlds_load` / `tlds_update` -/

/-- State of the TLD list file (`TLDS_LIST`): absent (opening raises
`FileNotFoundError`), unreadable (opening or reading raises some
other `OSError`), or present with raw content. -/
inductive FileState where
  | absent
  | unreadable
  | present (content : List Char)
  deriving DecidableEq, Repr

/-- Failures of `requests.get(TLDS_LIST_URL, timeout=3)` followed by
`r.raise_for_status()`: a transport failure, or a non-success HTTP
status. -/
inductive NetErr where
  | connectionFailure
  | httpStatus (code : Nat)
  deriving DecidableEq, Repr

/-- The exceptions that can escape `tlds_load` / `tlds_update`. -/
inductive PyErr where
  | fileNotFound
  | osError
  | connectionError
  | httpStatusError (code : Nat)
  | unicodeError
  deriving DecidableEq, Repr

/-- The exception `tlds_update` re-raises for each fetch failure. -/
def pyErrOfNet : NetErr → PyErr
  | .connectionFailure => .connectionError
  | .httpStatus code => .httpStatusError code

/-- Universal-newline translation done by opening a file in text mode:
`"\r\n"` and `"\r"` become `"\n"`. -/
def univNewlines : List Char → List Char
  | [] => []
  | [c] => if c = '\r' then ['\n'] else [c]
  | c :: d :: rest =>
    if c = '\r' then
      if d = '\n' then '\n' :: univNewlines rest
      else '\n' :: univNewlines (d :: rest)
    else c :: univNewlines (d :: rest)

/-- Iterating over an open text file: the decoded content split after
each `'\n'`, a last terminator-less line kept. -/
def fileLines : List Char → List (List Char)
  | [] => []
  | c :: rest =>
    if c = '\n' then ['\n'] :: fileLines rest
    else
      match fileLines rest with
      | [] => [[c]]
      | l :: ls => (c :: l) :: ls

/-- `tld.rstrip("\n")`: drop all trailing `'\n'` characters. -/
def rstripNl (cs : List Char) : List Char :=
  (cs.reverse.dropWhile (fun c => c = '\n')).reverse

/-- The list comprehension of `tlds_load`:
`[ tld.rstrip("\n") for tld in f ]` over the opened cache file. -/
def readLines (content : List Char) : List (List Char) :=
  (fileLines (univNewlines content)).map rstripNl

/-- Reading the cache file (`open(TLDS_LIST)` and the comprehension):
raises `FileNotFoundError` when absent, another `OSError` when
unreadable. -/
def cacheRead (fs : FileState) : Except PyErr (List (List Char)) :=
  match fs with
  | .absent => .error .fileNotFound
  | .unreadable => .error .osError
  | .present content => .ok (readLines content)

/-- The bytes written by the save loop of `tlds_update`:
`f.write(tld); f.write("\n")` for each label, into a file opened with
mode `"w"` (full overwrite). -/
def writeContent (tlds : List (List Char)) : List Char :=
  tlds.flatMap (fun tld => tld ++ ['\n'])

/-- The world the two functions act on: the cache file, the outcome
the remote registry endpoint would deliver, and an instrumentation
counter of performed network fetches. -/
structure World where
  tldsList : FileState
  remote : Except NetErr (List Char)
  fetchCount : Nat
  deriving Repr

/-- `tlds_update()`: fetch the registry document (counting the network
access), abort on any fetch or normalization failure — the
`except Exception` clause only logs and re-raises, so the cache file
is untouched — and otherwise overwrite the cache file with one label
per line and return the labels. -/
def tlds_update (w : World) : Except PyErr (List (List Char)) × World :=
  let w1 : World := { w with fetchCount := w.fetchCount + 1 }
  match w1.remote with
  | .error e => (.error (pyErrOfNet e), w1)
  | .ok body =>
    match process body with
    | .error _ => (.error .unicodeError, w1)
    | .ok tlds => (.ok tlds, { w1 with tldsList := .present (writeContent tlds) })

/-- `tlds_load()`: try the cache read; on `FileNotFoundError` fall
back to `tlds_update()`; propagate any other read error unchanged. -/
def tlds_load (w : World) : Except PyErr (List (List Char)) × World :=
  match w.tldsList with
  | .present content => (.ok (readLines content), w)
  | .unreadable => (.error .osError, w)
  | .absent => tlds_update w

/-! ## Specification-side helpers used to state the claims -/

/-- The normalized form of one line: stripped and lowercased. -/
def normLine (line : List Char) : List Char := pyLower (pyStrip line)

/-- Whether a normalized line is a data line (non-blank, not a
comment). -/
def isData (t : List Char) : Bool := ¬ (t.isEmpty ∨ ['#'].isPrefixOf t)

/-- The data lines of a document, in order, normalized. -/
def dataLabels (doc : List Char) : List (List Char) :=
  (pySplitlines doc).filterMap (fun line =>
    if isData (normLine line) then some (normLine line) else none)

/-- The labels obtained by IDNA decoding while processing a document
(one per successfully decoded `xn--` data line, in order). -/
def decodedLabels (doc : List Char) : List (List Char) :=
  (dataLabels doc).filterMap (fun t =>
    if xnSeq.isPrefixOf t then (asciiIdna t).toOption else none)

/-- Labels joined one per line, as the cache write lays them out. -/
def joinLines (tlds : List (List Char)) : List Char := writeContent tlds

/-! ## Character-level lemmas -/

theorem toNat_ofNat_valid {n : Nat} (h : n.isValidChar) : (Char.ofNat n).toNat = n := by
  simp [Char.ofNat, dif_pos h, Char.ofNatAux, Char.toNat, UInt32.toNat, BitVec.toNat_ofNatLt]

theorem pyCharLower_toNat (c : Char) :
    (pyCharLower c).toNat =
      if (0x41 ≤ c.toNat ∧ c.toNat ≤ 0x5a) ∨
         (0xc0 ≤ c.toNat ∧ c.toNat ≤ 0xde ∧ c.toNat ≠ 0xd7) then c.toNat + 0x20
      else c.toNat := by
  unfold pyCharLower
  by_cases h1 : 0x41 ≤ c.toNat ∧ c.toNat ≤ 0x5a
  · rw [if_pos h1, if_pos (Or.inl h1), toNat_ofNat_valid (Or.inl (by omega))]
  · rw [if_neg h1]
    by_cases h2 : 0xc0 ≤ c.toNat ∧ c.toNat ≤ 0xde ∧ c.toNat ≠ 0xd7
    · rw [if_pos h2, if_pos (Or.inr h2), toNat_ofNat_valid (Or.inl (by omega))]
    · rw [if_neg h2, if_neg (by tauto)]

theorem pyIsSpace_iff (c : Char) :
    pyIsSpace c = true ↔
      (c.toNat = 0x20 ∨ c.toNat = 0x9 ∨ c.toNat = 0xa ∨ c.toNat = 0xb ∨
       c.toNat = 0xc ∨ c.toNat = 0xd ∨ (0x1c ≤ c.toNat ∧ c.toNat ≤ 0x1f) ∨
       c.toNat = 0x85 ∨ c.toNat = 0xa0 ∨ c.toNat = 0x1680 ∨
       (0x2000 ≤ c.toNat ∧ c.toNat ≤ 0x200a) ∨
       c.toNat = 0x2028 ∨ c.toNat = 0x2029 ∨ c.toNat = 0x202f ∨
       c.toNat = 0x205f ∨ c.toNat = 0x3000) := by
  simp [pyIsSpace]

theorem pyIsLineBoundary_iff (c : Char) :
    pyIsLineBoundary c = true ↔
      (c.toNat = 0xa ∨ c.toNat = 0xd ∨ c.toNat = 0xb ∨ c.toNat = 0xc ∨
       (0x1c ≤ c.toNat ∧ c.toNat ≤ 0x1e) ∨ c.toNat = 0x85 ∨
       c.toNat = 0x2028 ∨ c.toNat = 0x2029) := by
  simp [pyIsLineBoundary]

theorem charEq_of_toNat {c d : Char} (h : c.toNat = d.toNat) : c = d :=
  Char.ext (UInt32.ext h)

theorem pyIsSpace_pyCharLower (c : Char) : pyIsSpace (pyCharLower c) = pyIsSpace c := by
  have t1 := pyCharLower_toNat c
  apply Bool.coe_iff_coe.mp
  rw [pyIsSpace_iff, pyIsSpace_iff]
  split at t1 <;> omega

theorem pyIsLineBoundary_pyCharLower (c : Char) :
    pyIsLineBoundary (pyCharLower c) = pyIsLineBoundary c := by
  have t1 := pyCharLower_toNat c
  apply Bool.coe_iff_coe.mp
  rw [pyIsLineBoundary_iff, pyIsLineBoundary_iff]
  split at t1 <;> omega

theorem pyCharLower_idem (c : Char) : pyCharLower (pyCharLower c) = pyCharLower c := by
  apply charEq_of_toNat
  have t1 := pyCharLower_toNat c
  have t2 := pyCharLower_toNat (pyCharLower c)
  split at t1 <;> split at t2 <;> omega

theorem pyLower_idem (l : List Char) : pyLower (pyLower l) = pyLower l := by
  simp only [pyLower, List.map_map]
  exact List.map_congr_left (fun c _ => pyCharLower_idem c)

/-! ## Strip / lower algebra -/

theorem dropWhile_map_comm {f : Char → Char} {p : Char → Bool}
    (hf : ∀ a, p (f a) = p a) (l : List Char) :
    (l.map f).dropWhile p = (l.dropWhile p).map f := by
  induction l with
  | nil => rfl
  | cons a as ih =>
    by_cases hp : p a
    · simp [List.dropWhile, hf, hp, ih]
    · simp [List.dropWhile, hf, hp]

theorem pyStrip_pyLower_comm (l : List Char) :
    pyStrip (pyLower l) = pyLower (pyStrip l) := by
  simp only [pyStrip, pyLower]
  rw [dropWhile_map_comm pyIsSpace_pyCharLower, ← List.map_reverse,
    dropWhile_map_comm pyIsSpace_pyCharLower, ← List.map_reverse]

theorem dropWhile_head?_not {p : Char → Bool} {l : List Char} {c : Char}
    (h : (l.dropWhile p).head? = some c) : p c = false := by
  induction l with
  | nil => simp at h
  | cons a as ih =>
    by_cases hp : p a
    · simp [List.dropWhile, hp] at h
      exact ih h
    · simp [List.dropWhile, hp] at h
      subst h
      simp [hp]

theorem dropWhile_eq_self {p : Char → Bool} {l : List Char}
    (h : ∀ c, l.head? = some c → p c = false) : l.dropWhile p = l := by
  cases l with
  | nil => rfl
  | cons a as => simp [List.dropWhile, h a rfl]

theorem dropWhile_dropWhile {p : Char → Bool} (l : List Char) :
    (l.dropWhile p).dropWhile p = l.dropWhile p :=
  dropWhile_eq_self (fun _ hc => dropWhile_head?_not hc)

theorem getLast?_of_suffix {B l : List Char} (h : B <:+ l) (hne : B ≠ []) :
    B.getLast? = l.getLast? := by
  obtain ⟨t, ht⟩ := h
  rw [← ht, List.getLast?_append_of_ne_nil _ hne]

theorem pyStrip_idem (l : List Char) : pyStrip (pyStrip l) = pyStrip l := by
  unfold pyStrip
  have step1 :
      ((((l.dropWhile pyIsSpace).reverse.dropWhile pyIsSpace).reverse).dropWhile pyIsSpace) =
        ((l.dropWhile pyIsSpace).reverse.dropWhile pyIsSpace).reverse := by
    apply dropWhile_eq_self
    intro c hc
    rw [List.head?_reverse] at hc
    have hBne : (l.dropWhile pyIsSpace).reverse.dropWhile pyIsSpace ≠ [] := by
      intro hB
      rw [hB] at hc
      simp at hc
    rw [getLast?_of_suffix (List.dropWhile_suffix pyIsSpace) hBne,
      List.getLast?_reverse] at hc
    exact dropWhile_head?_not hc
  rw [step1, List.reverse_reverse, dropWhile_dropWhile]

theorem pyStrip_pyLower_stable (l : List Char) :
    pyStrip (pyLower (pyStrip l)) = pyLower (pyStrip l) := by
  rw [pyStrip_pyLower_comm, pyStrip_idem]

theorem normLine_strip_stable (line : List Char) :
    pyStrip (normLine line) = normLine line :=
  pyStrip_pyLower_stable line

theorem normLine_lower_stable (line : List Char) :
    pyLower (normLine line) = normLine line :=
  pyLower_idem (pyStrip line)

/-! ## Normalization-pass lemmas -/

theorem uniFail_all (e : UniFail) : e = .decodeError := by cases e; rfl

theorem isData_false_iff (t : List Char) :
    isData t = false ↔ (t = [] ∨ ['#'].isPrefixOf t = true) := by
  simp [isData, List.isEmpty_iff, List.isPrefixOf_iff_prefix]
  tauto

theorem isData_true_iff (t : List Char) :
    isData t = true ↔ (t ≠ [] ∧ ['#'].isPrefixOf t = false) := by
  simp only [isData, List.isEmpty_iff, List.isPrefixOf_iff_prefix, decide_eq_true_eq,
    not_or, Bool.not_eq_true, ← List.isPrefixOf_iff_prefix]

theorem processLine_eq (line : List Char) :
    processLine line =
      if isData (normLine line) = false then .ok []
      else if xnSeq.isPrefixOf (normLine line) then
        match asciiIdna (normLine line) with
        | .error e => .error e
        | .ok u => .ok [normLine line, u]
      else .ok [normLine line] := by
  cases hd : isData (normLine line) with
  | false =>
    rcases (isData_false_iff _).mp hd with h | h <;>
      simp only [processLine, normLine] at h ⊢ <;> simp [h]
  | true =>
    obtain ⟨h1, h2⟩ := (isData_true_iff _).mp hd
    simp only [processLine, normLine] at h1 h2 ⊢
    rw [if_neg (by simp [h1, h2])]
    simp

theorem processLine_skip {line : List Char} (h : isData (normLine line) = false) :
    processLine line = .ok [] := by
  rw [processLine_eq, if_pos h]

theorem processLine_plain {line : List Char} (h : isData (normLine line) = true)
    (hxn : xnSeq.isPrefixOf (normLine line) = false) :
    processLine line = .ok [normLine line] := by
  rw [processLine_eq, if_neg (by simp [h]), if_neg (by simp [hxn])]

theorem processLine_xn_ok {line u : List Char} (h : isData (normLine line) = true)
    (hxn : xnSeq.isPrefixOf (normLine line) = true)
    (hu : asciiIdna (normLine line) = .ok u) :
    processLine line = .ok [normLine line, u] := by
  rw [processLine_eq, if_neg (by simp [h]), if_pos (by simp [hxn]), hu]

theorem processLine_xn_error {line : List Char} (h : isData (normLine line) = true)
    (hxn : xnSeq.isPrefixOf (normLine line) = true)
    (hu : asciiIdna (normLine line) = .error .decodeError) :
    processLine line = .error .decodeError := by
  rw [processLine_eq, if_neg (by simp [h]), if_pos (by simp [hxn]), hu]

theorem processLines_error_of_mem {lines : List (List Char)}
    (h : ∃ l ∈ lines, processLine l = .error .decodeError) :
    processLines lines = .error .decodeError := by
  induction lines with
  | nil => simp at h
  | cons a as ih =>
    obtain ⟨l, hl, he⟩ := h
    rcases List.mem_cons.mp hl with rfl | hl
    · simp [processLines, he]
    · cases ha : processLine a with
      | error e => cases e; simp [processLines, ha]
      | ok b => simp [processLines, ha, ih ⟨l, hl, he⟩]

/-! ## Claims -/

/-- C1: the normalization pass processes lines in order — each line is
trimmed and lowercased, empty and `#`-initial results are dropped,
every other result is emitted, and an `xn--` result is followed
immediately by its IDNA decoding; on the document
`"# comment\n\nEXAMPLE\nXN--VERMGENSBERATUNG-PWB\n"` the output is
exactly `["example", "xn--vermgensberatung-pwb", "vermögensberatung"]`. -/
theorem claim1_normalization :
    (process (chars "# comment\n\nEXAMPLE\nXN--VERMGENSBERATUNG-PWB\n") =
      .ok [chars "example", chars "xn--vermgensberatung-pwb", chars "vermögensberatung"]) ∧
    ∀ line : List Char,
      (isData (normLine line) = false → processLine line = .ok []) ∧
      (isData (normLine line) = true → xnSeq.isPrefixOf (normLine line) = false →
        processLine line = .ok [normLine line]) ∧
      (∀ u, isData (normLine line) = true → xnSeq.isPrefixOf (normLine line) = true →
        asciiIdna (normLine line) = .ok u → processLine line = .ok [normLine line, u]) :=
  ⟨rfl, fun _ =>
    ⟨fun h => processLine_skip h,
     fun h hxn => processLine_plain h hxn,
     fun _ h hxn hu => processLine_xn_ok h hxn hu⟩⟩

theorem claim1_witness :
    processLine (chars "# note") = .ok [] ∧
    processLine (chars " COM ") = .ok [chars "com"] ∧
    processLine (chars "XN--TDA") = .ok [chars "xn--tda", chars "ü"] :=
  ⟨(claim1_normalization.2 (chars "# note")).1 rfl,
   (claim1_normalization.2 (chars " COM ")).2.1 rfl rfl,
   (claim1_normalization.2 (chars "XN--TDA")).2.2 (chars "ü") rfl rfl rfl⟩

/-- C2: `tlds_load` first attempts the cache read; exactly on a
missing cache file it instead returns `tlds_update`'s result; an
unreadable cache file propagates the read error unchanged; and on any
existing cache file the world — in particular the fetch count — is
untouched (no network access, no update). -/
theorem claim2_load_cache_fallback (w : World) :
    (w.tldsList = .absent → tlds_load w = tlds_update w) ∧
    (∀ c, w.tldsList = .present c → tlds_load w = (.ok (readLines c), w)) ∧
    (w.tldsList = .unreadable → tlds_load w = (.error .osError, w)) ∧
    (w.tldsList ≠ .absent → (tlds_load w).2 = w ∧
      (tlds_load w).2.fetchCount = w.fetchCount) := by
  obtain ⟨fs, re, n⟩ := w
  cases fs <;> simp [tlds_load]

theorem claim2_witness :
    tlds_load ⟨.absent, .error .connectionFailure, 0⟩ =
      tlds_update ⟨.absent, .error .connectionFailure, 0⟩ ∧
    tlds_load ⟨.unreadable, .ok [], 3⟩ =
      (.error .osError, ⟨.unreadable, .ok [], 3⟩) :=
  ⟨(claim2_load_cache_fallback ⟨.absent, .error .connectionFailure, 0⟩).1 rfl,
   (claim2_load_cache_fallback ⟨.unreadable, .ok [], 3⟩).2.2.1 rfl⟩

/-- C3: with an existing cache file of content `C`, if the fetch fails
(transport or HTTP status) or normalization fails, `tlds_update`
raises, never reaches the write, the cache still holds `C`, a
subsequent read still returns `C`'s lines, and an HTTP-status failure
raises precisely the corresponding status error. -/
theorem claim3_update_failure_atomic (w : World) (cacheC : List Char)
    (hC : w.tldsList = .present cacheC)
    (hfail : (∃ ne, w.remote = .error ne) ∨
      (∃ body, w.remote = .ok body ∧ process body = .error .decodeError)) :
    (∃ e, (tlds_update w).1 = .error e) ∧
    (tlds_update w).2.tldsList = .present cacheC ∧
    cacheRead (tlds_update w).2.tldsList = .ok (readLines cacheC) ∧
    (∀ code, w.remote = .error (.httpStatus code) →
      (tlds_update w).1 = .error (.httpStatusError code)) := by
  rcases hfail with ⟨ne, hne⟩ | ⟨body, hb, hp⟩
  · have hu : tlds_update w =
        (.error (pyErrOfNet ne), { w with fetchCount := w.fetchCount + 1 }) := by
      simp [tlds_update, hne]
    refine ⟨⟨pyErrOfNet ne, by rw [hu]⟩, by simp [hu, hC], by simp [hu, hC, cacheRead], ?_⟩
    intro code hcode
    rw [hne] at hcode
    obtain rfl : ne = .httpStatus code := by injection hcode
    rw [hu]
    rfl
  · have hu : tlds_update w =
        (.error .unicodeError, { w with fetchCount := w.fetchCount + 1 }) := by
      simp [tlds_update, hb, hp]
    refine ⟨⟨.unicodeError, by rw [hu]⟩, by simp [hu, hC], by simp [hu, hC, cacheRead], ?_⟩
    intro code hcode
    rw [hb] at hcode
    exact absurd hcode (by simp)

theorem claim3_witness :
    (∃ e, (tlds_update ⟨.present (chars "com\n"), .error (.httpStatus 500), 2⟩).1 =
      .error e) ∧
    (tlds_update ⟨.present (chars "com\n"), .error (.httpStatus 500), 2⟩).2.tldsList =
      .present (chars "com\n") ∧
    cacheRead
        (tlds_update ⟨.present (chars "com\n"), .error (.httpStatus 500), 2⟩).2.tldsList =
      .ok (readLines (chars "com\n")) ∧
    (∀ code,
      (⟨.present (chars "com\n"), .error (.httpStatus 500), 2⟩ : World).remote =
        .error (.httpStatus code) →
      (tlds_update ⟨.present (chars "com\n"), .error (.httpStatus 500), 2⟩).1 =
        .error (.httpStatusError code)) :=
  claim3_update_failure_atomic _ _ rfl (.inl ⟨_, rfl⟩)

/-- C5: on a cache file holding the newline-separated labels `com`,
`net`, `org` (with or without a final newline), `tlds_load` returns
exactly those labels in order and leaves the world — including the
fetch count, whatever the remote would answer — untouched. -/
theorem claim5_cache_hit (re : Except NetErr (List Char)) (n : Nat) :
    tlds_load ⟨.present (chars "com\nnet\norg\n"), re, n⟩ =
      (.ok [chars "com", chars "net", chars "org"],
        ⟨.present (chars "com\nnet\norg\n"), re, n⟩) ∧
    tlds_load ⟨.present (chars "com\nnet\norg"), re, n⟩ =
      (.ok [chars "com", chars "net", chars "org"],
        ⟨.present (chars "com\nnet\norg"), re, n⟩) := by
  have h1 : readLines (chars "com\nnet\norg\n") = [chars "com", chars "net", chars "org"] := rfl
  have h2 : readLines (chars "com\nnet\norg") = [chars "com", chars "net", chars "org"] := rfl
  exact ⟨by simp [tlds_load, h1], by simp [tlds_load, h2]⟩

/-- C7: any registry document containing a data line that starts with
`xn--` and whose IDNA decoding fails makes the whole normalization
pass raise the decode error: no label list is returned at all. -/
theorem claim7_decode_failure_aborts (doc : List Char)
    (h : ∃ line ∈ pySplitlines doc, isData (normLine line) = true ∧
      xnSeq.isPrefixOf (normLine line) = true ∧
      asciiIdna (normLine line) = .error .decodeError) :
    process doc = .error .decodeError := by
  obtain ⟨line, hline, hd, hxn, he⟩ := h
  unfold process
  exact processLines_error_of_mem ⟨line, hline, processLine_xn_error hd hxn he⟩

theorem claim7_witness :
    process (chars "xn--0\nabc\n") = .error .decodeError :=
  claim7_decode_failure_aborts _ ⟨chars "xn--0", by decide, rfl, rfl, rfl⟩

/-- C8: whenever the cache file exists and is readable, `tlds_load`
is read-only — it performs no write to the cache file and no other
mutation of the world, so the file content after the call equals the
content before. -/
theorem claim8_cache_hit_readonly (w : World) (c : List Char)
    (h : w.tldsList = .present c) :
    tlds_load w = (.ok (readLines c), w) ∧
    (tlds_load w).2.tldsList = w.tldsList ∧
    (tlds_load w).2.fetchCount = w.fetchCount := by
  have : tlds_load w = (.ok (readLines c), w) := by simp [tlds_load, h]
  exact ⟨this, by rw [this], by rw [this]⟩

theorem claim8_witness :
    tlds_load ⟨.present (chars "a\n"), .ok [], 5⟩ =
      (.ok (readLines (chars "a\n")), ⟨.present (chars "a\n"), .ok [], 5⟩) ∧
    (tlds_load ⟨.present (chars "a\n"), .ok [], 5⟩).2.tldsList =
      (⟨.present (chars "a\n"), .ok [], 5⟩ : World).tldsList ∧
    (tlds_load ⟨.present (chars "a\n"), .ok [], 5⟩).2.fetchCount =
      (⟨.present (chars "a\n"), .ok [], 5⟩ : World).fetchCount :=
  claim8_cache_hit_readonly _ _ rfl

/-! ## Lines produced by `splitlines` contain no line boundaries -/

theorem pySplitlines_not_boundary {cs : List Char} :
    ∀ l ∈ pySplitlines cs, ∀ c ∈ l, pyIsLineBoundary c = false := by
  induction cs using pySplitlines.induct with
  | case1 => simp [pySplitlines]
  | case2 c h =>
    intro l hl x hx
    simp [pySplitlines, h] at hl
    subst hl
    simp at hx
  | case3 c h =>
    intro l hl x hx
    simp [pySplitlines, h] at hl
    subst hl
    simp at hx
    subst hx
    simpa using h
  | case4 c d rest h ih =>
    intro l hl x hx
    simp only [pySplitlines, if_pos h] at hl
    rcases List.mem_cons.mp hl with rfl | hl
    · simp at hx
    · exact ih l hl x hx
  | case5 c d rest h1 h ih =>
    intro l hl x hx
    simp only [pySplitlines, if_neg h1, if_pos h] at hl
    rcases List.mem_cons.mp hl with rfl | hl
    · simp at hx
    · exact ih l hl x hx
  | case6 c d rest h1 h hm ih =>
    intro l hl x hx
    simp only [pySplitlines, if_neg h1, if_neg h, hm] at hl
    rcases List.mem_cons.mp hl with rfl | hl
    · simp at hx
      subst hx
      simpa using h
    · simp at hl
  | case7 c d rest h1 h l0 ls0 hm ih =>
    intro l hl x hx
    simp only [pySplitlines, if_neg h1, if_neg h, hm] at hl
    rcases List.mem_cons.mp hl with rfl | hl
    · rcases List.mem_cons.mp hx with rfl | hx
      · simpa using h
      · exact ih l0 (by rw [hm]; simp) x hx
    · exact ih l (by rw [hm]; exact List.mem_cons_of_mem _ hl) x hx

theorem pySplitlines_newline_cons (cs : List Char) :
    pySplitlines ('\n' :: cs) = [] :: pySplitlines cs := by
  have h1 : pyIsLineBoundary '\n' = true := by decide
  have h2 : ¬(('\n' : Char) = '\r') := by decide
  cases cs <;> simp [pySplitlines, h1, h2]

theorem pySplitlines_append_notB (cs : List Char) :
    ∀ l : List Char, (∀ c ∈ l, pyIsLineBoundary c = false) →
      pySplitlines (l ++ '\n' :: cs) = l :: pySplitlines cs := by
  intro l
  induction l with
  | nil => intro _; exact pySplitlines_newline_cons cs
  | cons a l ih =>
    intro hl
    have ha : pyIsLineBoundary a = false := hl a (by simp)
    have har : ¬(a = '\r' ∧ (l ++ '\n' :: cs).headI = '\n') := by
      rintro ⟨rfl, -⟩
      exact absurd ha (by decide)
    cases l with
    | nil =>
      simp only [List.nil_append, List.cons_append]
      simp only [pySplitlines]
      rw [if_neg (by rintro ⟨rfl, -⟩; exact absurd ha (by decide)),
        if_neg (by simp [ha]), pySplitlines_newline_cons]
    | cons b l' =>
      have htail := ih (fun c hc => hl c (List.mem_cons_of_mem a hc))
      simp only [List.cons_append] at htail ⊢
      simp only [pySplitlines]
      rw [if_neg (by rintro ⟨rfl, -⟩; exact absurd ha (by decide)),
        if_neg (by simp [ha]), htail]

theorem pySplitlines_joinLines {L : List (List Char)}
    (h : ∀ t ∈ L, ∀ c ∈ t, pyIsLineBoundary c = false) :
    pySplitlines (joinLines L) = L := by
  induction L with
  | nil => rfl
  | cons t L ih =>
    have hj : joinLines (t :: L) = t ++ '\n' :: joinLines L := by
      simp [joinLines, writeContent]
    rw [hj, pySplitlines_append_notB _ t (h t (by simp)),
      ih (fun u hu => h u (by simp [hu]))]

/-! ## Characterization of a successful pass without `xn--` lines -/

theorem normLine_normLine (line : List Char) :
    normLine (normLine line) = normLine line := by
  show pyLower (pyStrip (pyLower (pyStrip line))) = pyLower (pyStrip line)
  rw [pyStrip_pyLower_stable, pyLower_idem]

theorem mem_pyStrip {d : Char} {l : List Char} (h : d ∈ pyStrip l) : d ∈ l := by
  unfold pyStrip at h
  rw [List.mem_reverse] at h
  have h2 := (List.dropWhile_suffix pyIsSpace).subset h
  rw [List.mem_reverse] at h2
  exact (List.dropWhile_suffix pyIsSpace).subset h2

theorem processLines_no_xn_labels {lines : List (List Char)} {L : List (List Char)}
    (hok : processLines lines = .ok L)
    (hx : ∀ line ∈ lines, xnSeq.isPrefixOf (normLine line) = false) :
    ∀ t ∈ L, ∃ line ∈ lines, t = normLine line ∧ isData t = true := by
  induction lines generalizing L with
  | nil =>
    simp only [processLines] at hok
    injection hok with hok
    subst hok
    simp
  | cons a as ih =>
    cases hd : isData (normLine a) with
    | false =>
      rw [show processLines (a :: as) = processLines as by
          cases hres : processLines as with
          | error e => simp [processLines, processLine_skip hd, hres]
          | ok outs => simp [processLines, processLine_skip hd, hres]] at hok
      intro t ht
      obtain ⟨line, hline, heq, hdata⟩ :=
        ih hok (fun l hl => hx l (List.mem_cons_of_mem a hl)) t ht
      exact ⟨line, List.mem_cons_of_mem a hline, heq, hdata⟩
    | true =>
      have hpl := processLine_plain hd (hx a (by simp))
      simp only [processLines, hpl] at hok
      cases hrest : processLines as with
      | error e => rw [hrest] at hok; exact absurd hok (by simp)
      | ok outs =>
        rw [hrest] at hok
        simp only [List.singleton_append] at hok
        injection hok with hok
        subst hok
        intro t ht
        rcases List.mem_cons.mp ht with rfl | ht
        · exact ⟨a, by simp, rfl, hd⟩
        · obtain ⟨line, hline, heq, hdata⟩ :=
            ih hrest (fun l hl => hx l (List.mem_cons_of_mem a hl)) t ht
          exact ⟨line, List.mem_cons_of_mem a hline, heq, hdata⟩

theorem processLines_all_plain {L : List (List Char)}
    (h : ∀ t ∈ L, isData (normLine t) = true ∧ normLine t = t ∧
      xnSeq.isPrefixOf (normLine t) = false) :
    processLines L = .ok L := by
  induction L with
  | nil => rfl
  | cons t L ih =>
    obtain ⟨hd, hn, hxn⟩ := h t (by simp)
    have hpl : processLine t = .ok [t] := by
      rw [processLine_plain hd hxn, hn]
    simp [processLines, hpl, ih (fun u hu => h u (by simp [hu]))]

/-- C6 counterexample: the claim fails on the registry document
`"xn--tda"`.  The pass emits the punycode label and its decoding `ü`;
re-running the pass on the joined output decodes the punycode line
again, so the decoded label is duplicated. -/
theorem claim6_counterexample :
    process (chars "xn--tda") = .ok [chars "xn--tda", chars "ü"] ∧
    joinLines [chars "xn--tda", chars "ü"] = chars "xn--tda\nü\n" ∧
    process (chars "xn--tda\nü\n") = .ok [chars "xn--tda", chars "ü", chars "ü"] ∧
    [chars "xn--tda", chars "ü", chars "ü"] ≠ [chars "xn--tda", chars "ü"] :=
  ⟨rfl, rfl, rfl, by decide⟩

/-- C6 (amended): re-running the normalization pass on its own joined
output yields the same sequence for every registry document none of
whose lines normalizes to an `xn--` label (the counterexample forces
this restriction: an `xn--` data line is re-decoded on the second
pass, duplicating the decoded label). -/
theorem claim6_amended_idempotent (doc : List Char) (L : List (List Char))
    (hok : process doc = .ok L)
    (hnoxn : ∀ line ∈ pySplitlines doc, xnSeq.isPrefixOf (normLine line) = false) :
    process (joinLines L) = .ok L := by
  unfold process at hok ⊢
  have hprops := processLines_no_xn_labels hok hnoxn
  have hbound : ∀ t ∈ L, ∀ c ∈ t, pyIsLineBoundary c = false := by
    intro t ht c hc
    obtain ⟨line, hline, rfl, -⟩ := hprops t ht
    obtain ⟨d, hd, rfl⟩ := List.mem_map.mp hc
    rw [pyIsLineBoundary_pyCharLower]
    exact pySplitlines_not_boundary line hline d (mem_pyStrip hd)
  rw [pySplitlines_joinLines hbound]
  apply processLines_all_plain
  intro t ht
  obtain ⟨line, hline, rfl, hdata⟩ := hprops t ht
  refine ⟨by rw [normLine_normLine]; exact hdata, normLine_normLine line, ?_⟩
  rw [normLine_normLine]
  exact hnoxn line hline

theorem claim6_amended_witness :
    process (chars "com\nEXAMPLE\n") = .ok [chars "com", chars "example"] ∧
    process (joinLines [chars "com", chars "example"]) =
      .ok [chars "com", chars "example"] :=
  ⟨rfl, claim6_amended_idempotent (chars "com\nEXAMPLE\n") _ rfl (by decide)⟩

/-! ## Per-line inversion of a successful pass -/

theorem processLines_cons_inv {a : List Char} {as L : List (List Char)}
    (h : processLines (a :: as) = .ok L) :
    ∃ out outs, processLine a = .ok out ∧ processLines as = .ok outs ∧
      L = out ++ outs := by
  cases ha : processLine a with
  | error e => simp [processLines, ha] at h
  | ok out =>
    cases has : processLines as with
    | error e => simp [processLines, ha, has] at h
    | ok outs =>
      simp only [processLines, ha, has] at h
      injection h with h
      exact ⟨out, outs, rfl, rfl, h.symm⟩

theorem processLines_ok_of_mem {lines L : List (List Char)}
    (h : processLines lines = .ok L) :
    ∀ line ∈ lines, ∃ out, processLine line = .ok out := by
  induction lines generalizing L with
  | nil => simp
  | cons a as ih =>
    obtain ⟨out, outs, ha, has, -⟩ := processLines_cons_inv h
    intro line hline
    rcases List.mem_cons.mp hline with rfl | hline
    · exact ⟨out, ha⟩
    · exact ih has line hline

theorem processLine_ok_length {line : List Char} {out : List (List Char)}
    (h : processLine line = .ok out) :
    out.length =
      (if isData (normLine line) = false then 0
       else if xnSeq.isPrefixOf (normLine line) then 2 else 1) := by
  rw [processLine_eq] at h
  by_cases hd : isData (normLine line) = false
  · rw [if_pos hd] at h
    injection h with h
    simp [hd, ← h]
  · rw [if_neg hd] at h
    by_cases hxn : xnSeq.isPrefixOf (normLine line) = true
    · rw [if_pos (by simp [hxn])] at h
      cases ha : asciiIdna (normLine line) with
      | error e => rw [ha] at h; exact absurd h (by simp)
      | ok u =>
        rw [ha] at h
        injection h with h
        simp [hd, hxn, ← h]
    · rw [if_neg (by simp [hxn])] at h
      injection h with h
      simp [hd, hxn, ← h]

/-- C9: every label the pass emits directly from an input line (the
head of the per-line output, never the IDNA-decoded companion) is
non-empty, has no surrounding whitespace, equals its own lowercase
form, and does not start with `#`. -/
theorem claim9_direct_label_invariant (doc line : List Char)
    (_hline : line ∈ pySplitlines doc) (out : List (List Char))
    (hout : processLine line = .ok out) (t : List Char)
    (ht : out.head? = some t) :
    t ≠ [] ∧ pyStrip t = t ∧ pyLower t = t ∧ ['#'].isPrefixOf t = false := by
  rw [processLine_eq] at hout
  by_cases hd : isData (normLine line) = false
  · rw [if_pos hd] at hout
    injection hout with h
    subst h
    simp at ht
  · have hd' : isData (normLine line) = true := by
      cases hiso : isData (normLine line)
      · exact absurd hiso hd
      · rfl
    rw [if_neg hd] at hout
    have hthead : t = normLine line := by
      by_cases hxn : xnSeq.isPrefixOf (normLine line) = true
      · rw [if_pos (by simp [hxn])] at hout
        cases ha : asciiIdna (normLine line) with
        | error e => rw [ha] at hout; exact absurd hout (by simp)
        | ok u =>
          rw [ha] at hout
          injection hout with h
          subst h
          simp at ht
          exact ht.symm
      · rw [if_neg (by simp [hxn])] at hout
        injection hout with h
        subst h
        simp at ht
        exact ht.symm
    subst hthead
    obtain ⟨h1, h2⟩ := (isData_true_iff _).mp hd'
    exact ⟨h1, normLine_strip_stable line, normLine_lower_stable line, h2⟩

theorem claim9_witness :
    chars "com" ≠ [] ∧ pyStrip (chars "com") = chars "com" ∧
    pyLower (chars "com") = chars "com" ∧
    ['#'].isPrefixOf (chars "com") = false :=
  claim9_direct_label_invariant (chars " Com \n") (chars " Com ")
    (by decide) [chars "com"] rfl (chars "com") rfl

/-- C10: on success the output length is the number of data lines
plus the number of data lines starting with `xn--`; each line
contributes zero labels when blank or a comment, two when it is an
`xn--` data line, and one otherwise. -/
theorem claim10_label_count (doc : List Char) (L : List (List Char))
    (hok : process doc = .ok L) :
    L.length = (dataLabels doc).length +
      ((dataLabels doc).filter (fun t => xnSeq.isPrefixOf t)).length ∧
    ∀ line ∈ pySplitlines doc, ∃ out, processLine line = .ok out ∧
      out.length =
        (if isData (normLine line) = false then 0
         else if xnSeq.isPrefixOf (normLine line) then 2 else 1) := by
  unfold process at hok
  constructor
  · unfold dataLabels
    generalize hls : pySplitlines doc = lines at hok
    clear hls
    induction lines generalizing L with
    | nil =>
      simp only [processLines] at hok
      injection hok with hok
      subst hok
      simp
    | cons a as ih =>
      obtain ⟨out, outs, ha, has, rfl⟩ := processLines_cons_inv hok
      have hlen := processLine_ok_length ha
      have ihlen := ih _ has
      by_cases hd : isData (normLine a) = false
      · rw [if_pos hd] at hlen
        have hfa : (if isData (normLine a) = true then some (normLine a) else none) =
            (none : Option (List Char)) := by simp [hd]
        simp only [List.filterMap_cons, hfa, List.length_append]
        omega
      · have hd' : isData (normLine a) = true := by
          cases hiso : isData (normLine a)
          · exact absurd hiso hd
          · rfl
        rw [if_neg hd] at hlen
        have hfa : (if isData (normLine a) = true then some (normLine a) else none) =
            some (normLine a) := by simp [hd']
        by_cases hxn : xnSeq.isPrefixOf (normLine a) = true
        · rw [if_pos (by simp [hxn])] at hlen
          simp only [List.filterMap_cons, hfa, List.length_append, List.filter_cons,
            hxn, if_true, List.length_cons]
          omega
        · have hxn' : xnSeq.isPrefixOf (normLine a) = false := by
            cases hiso : xnSeq.isPrefixOf (normLine a)
            · rfl
            · exact absurd hiso hxn
          rw [if_neg (by simp [hxn'])] at hlen
          simp only [List.filterMap_cons, hfa, List.length_append, List.filter_cons,
            hxn', Bool.false_eq_true, if_false, List.length_cons]
          omega
  · intro line hline
    obtain ⟨out, hout⟩ := processLines_ok_of_mem hok line hline
    exact ⟨out, hout, processLine_ok_length hout⟩

/-! ## Characters of a decoded label: from the label, or non-ASCII -/

theorem insSortGo_mem {fuel : Nat} :
    ∀ {ext base : List Char} {charN : Nat} {pos : Int} {bias : Nat} {first : Bool}
      {res : List Char}, 128 ≤ charN →
      insSortGo fuel ext base charN pos bias first = .ok res →
      ∀ c ∈ res, c ∈ base ∨ 128 ≤ c.toNat := by
  induction fuel with
  | zero =>
    intro ext base charN pos bias first res hch h c hc
    cases ext with
    | nil =>
      simp only [insSortGo] at h
      injection h with h
      subst h
      exact Or.inl hc
    | cons e0 ext' => simp [insSortGo] at h
  | succ n ih =>
    intro ext base charN pos bias first res hch h c hc
    cases ext with
    | nil =>
      simp only [insSortGo] at h
      injection h with h
      subst h
      exact Or.inl hc
    | cons e0 ext' =>
      simp only [insSortGo] at h
      cases hd : dgnGo (e0 :: ext') 0 1 0 bias with
      | error e => rw [hd] at h; exact absurd h (by simp)
      | ok pr =>
        obtain ⟨delta, rest⟩ := pr
        rw [hd] at h
        dsimp only at h
        split at h
        · exact absurd h (by simp)
        · split at h
          · exact absurd h (by simp)
          · rename_i hlt hsur
            rcases ih (le_trans hch (Nat.le_add_right _ _)) h c hc with hc2 | hge
            · rcases List.mem_append.mp hc2 with hc3 | hc3
              · rcases List.mem_append.mp hc3 with hc4 | hc4
                · exact Or.inl (List.take_subset _ _ hc4)
                · right
                  obtain rfl := List.mem_singleton.mp hc4
                  rw [toNat_ofNat_valid (by simp only [Nat.isValidChar]; omega)]
                  exact le_trans hch (Nat.le_add_right _ _)
              · exact Or.inl (List.drop_subset _ _ hc3)
            · exact Or.inr hge

theorem punycodeDecode_mem {text u : List Char} (h : punycodeDecode text = .ok u) :
    ∀ c ∈ u, c ∈ text ∨ 128 ≤ c.toNat := by
  unfold punycodeDecode at h
  cases hr : rfindDash text with
  | none =>
    rw [hr] at h
    intro c hc
    rcases insSortGo_mem (by norm_num) h c hc with hm | hge
    · simp at hm
    · exact Or.inr hge
  | some p =>
    rw [hr] at h
    intro c hc
    rcases insSortGo_mem (by norm_num) h c hc with hm | hge
    · exact Or.inl (List.take_subset _ _ hm)
    · exact Or.inr hge

theorem toUnicodeR_mem {label u : List Char} (h : toUnicodeR label = .ok u) :
    ∀ c ∈ u, c ∈ label ∨ 128 ≤ c.toNat := by
  unfold toUnicodeR at h
  split at h
  · exact absurd h (by simp)
  · split at h
    · cases hp : punycodeDecode (label.drop 4) with
      | error e => rw [hp] at h; exact absurd h (by simp)
      | ok result =>
        rw [hp] at h
        dsimp only at h
        cases ha : toAsciiR result with
        | error e => rw [ha] at h; exact absurd h (by simp)
        | ok label2 =>
          rw [ha] at h
          dsimp only at h
          split at h
          · injection h with h
            subst h
            intro c hc
            rcases punycodeDecode_mem hp c hc with hm | hge
            · exact Or.inl (List.drop_subset _ _ hm)
            · exact Or.inr hge
          · exact absurd h (by simp)
    · injection h with h
      subst h
      exact fun c hc => Or.inl hc

theorem pySplitDot_ne_nil (cs : List Char) : pySplitDot cs ≠ [] := by
  induction cs with
  | nil => simp [pySplitDot]
  | cons a cs ih =>
    by_cases ha : a = '.'
    · simp [pySplitDot, ha]
    · cases hm : pySplitDot cs with
      | nil => exact absurd hm ih
      | cons l0 ls0 => simp [pySplitDot, ha, hm]

theorem mem_pySplitDot_sub :
    ∀ {cs : List Char}, ∀ l ∈ pySplitDot cs, ∀ c ∈ l, c ∈ cs := by
  intro cs
  induction cs with
  | nil =>
    intro l hl c hc
    simp [pySplitDot] at hl
    subst hl
    simp at hc
  | cons a cs ih =>
    intro l hl c hc
    by_cases ha : a = '.'
    · simp only [pySplitDot, if_pos ha] at hl
      rcases List.mem_cons.mp hl with rfl | hl
      · simp at hc
      · exact List.mem_cons_of_mem a (ih l hl c hc)
    · cases hm : pySplitDot cs with
      | nil => exact absurd hm (pySplitDot_ne_nil cs)
      | cons l0 ls0 =>
        simp only [pySplitDot, if_neg ha, hm] at hl
        rcases List.mem_cons.mp hl with rfl | hl
        · rcases List.mem_cons.mp hc with rfl | hc
          · simp
          · exact List.mem_cons_of_mem a (ih l0 (by rw [hm]; simp) c hc)
        · exact List.mem_cons_of_mem a
            (ih l (by rw [hm]; exact List.mem_cons_of_mem _ hl) c hc)

theorem dot_mem_of_two_le {cs : List Char}
    (h : 2 ≤ (pySplitDot cs).length) : '.' ∈ cs := by
  induction cs with
  | nil => simp [pySplitDot] at h
  | cons a cs ih =>
    by_cases ha : a = '.'
    · subst ha; simp
    · cases hm : pySplitDot cs with
      | nil => exact absurd hm (pySplitDot_ne_nil cs)
      | cons l0 ls0 =>
        simp only [pySplitDot, if_neg ha, hm, List.length_cons] at h
        refine List.mem_cons_of_mem a (ih ?_)
        rw [hm]
        simp only [List.length_cons]
        omega

theorem pySplitDot_no_dot {cs : List Char} (h : '.' ∉ cs) : pySplitDot cs = [cs] := by
  induction cs with
  | nil => rfl
  | cons a cs ih =>
    have ha : ¬ a = '.' := fun hh => h (hh ▸ List.mem_cons_self a cs)
    have ih' := ih (fun hh => h (List.mem_cons_of_mem a hh))
    simp [pySplitDot, ha, ih']

theorem mem_intercalate_dot :
    ∀ {parts : List (List Char)} {c : Char}, c ∈ List.intercalate ['.'] parts →
      (∃ part ∈ parts, c ∈ part) ∨ (c = '.' ∧ 2 ≤ parts.length) := by
  intro parts
  induction parts with
  | nil => intro c hc; simp [List.intercalate] at hc
  | cons p ps ih =>
    intro c hc
    cases ps with
    | nil =>
      rw [show List.intercalate ['.'] [p] = p by simp [List.intercalate]] at hc
      exact Or.inl ⟨p, by simp, hc⟩
    | cons q qs =>
      have hic : List.intercalate ['.'] (p :: q :: qs) =
          (p ++ ['.']) ++ List.intercalate ['.'] (q :: qs) := by
        simp [List.intercalate, List.intersperse]
      rw [hic] at hc
      rcases List.mem_append.mp hc with hc1 | hc1
      · rcases List.mem_append.mp hc1 with hc2 | hc2
        · exact Or.inl ⟨p, by simp, hc2⟩
        · exact Or.inr ⟨List.mem_singleton.mp hc2, by simp only [List.length_cons]; omega⟩
      · rcases ih hc1 with ⟨part, hpart, hcc⟩ | ⟨rfl, -⟩
        · exact Or.inl ⟨part, List.mem_cons_of_mem p hpart, hcc⟩
        · exact Or.inr ⟨rfl, by simp only [List.length_cons]; omega⟩

theorem toUniAll_length {labs outs : List (List Char)}
    (h : toUniAll labs = .ok outs) : outs.length = labs.length := by
  induction labs generalizing outs with
  | nil =>
    simp only [toUniAll] at h
    injection h with h
    subst h
    rfl
  | cons lab rest ih =>
    cases hl : toUnicodeR lab with
    | error e => simp [toUniAll, hl] at h
    | ok out0 =>
      cases hr : toUniAll rest with
      | error e => simp [toUniAll, hl, hr] at h
      | ok outs0 =>
        simp only [toUniAll, hl, hr] at h
        injection h with h
        subst h
        simp [ih hr]

theorem toUniAll_mem_inv {labs outs : List (List Char)}
    (h : toUniAll labs = .ok outs) :
    ∀ out ∈ outs, ∃ lab ∈ labs, toUnicodeR lab = .ok out := by
  induction labs generalizing outs with
  | nil =>
    simp only [toUniAll] at h
    injection h with h
    subst h
    simp
  | cons lab rest ih =>
    cases hl : toUnicodeR lab with
    | error e => simp [toUniAll, hl] at h
    | ok out0 =>
      cases hr : toUniAll rest with
      | error e => simp [toUniAll, hl, hr] at h
      | ok outs0 =>
        simp only [toUniAll, hl, hr] at h
        injection h with h
        subst h
        intro out hout
        rcases List.mem_cons.mp hout with rfl | hout
        · exact ⟨lab, by simp, hl⟩
        · obtain ⟨lab', hlab', hl'⟩ := ih hr out hout
          exact ⟨lab', List.mem_cons_of_mem lab hlab', hl'⟩

theorem idnaDecode_mem {input u : List Char} (h : idnaDecode input = .ok u) :
    ∀ c ∈ u, c ∈ input ∨ 128 ≤ c.toNat := by
  unfold idnaDecode at h
  split at h
  · injection h with h
    subst h
    simp
  · split at h
    · injection h with h
      subst h
      exact fun c hc => Or.inl hc
    · rename_i hne _
      have hinp : input ≠ [] := by
        intro hh
        rw [hh] at hne
        simp at hne
      dsimp only at h
      have hmem_parts : ∀ part,
          (part ∈ (pySplitDot input).dropLast ∨ part ∈ pySplitDot input) →
          ∀ c ∈ part, c ∈ input := by
        intro part hpart c hc
        rcases hpart with hpart | hpart
        · exact mem_pySplitDot_sub part (List.dropLast_subset _ hpart) c hc
        · exact mem_pySplitDot_sub part hpart c hc
      by_cases hlast : (pySplitDot input).getLast? = some ([] : List Char)
      · rw [if_pos hlast] at h
        have hdot : '.' ∈ input := by
          by_contra hnd
          rw [pySplitDot_no_dot hnd] at hlast
          simp at hlast
          exact hinp hlast
        cases ht : toUniAll (pySplitDot input).dropLast with
        | error e => rw [ht] at h; exact absurd h (by simp)
        | ok outs =>
          rw [ht] at h
          dsimp only at h
          injection h with h
          subst h
          intro c hc
          rcases List.mem_append.mp hc with hc1 | hc1
          · rcases mem_intercalate_dot hc1 with ⟨part, hpart, hcc⟩ | ⟨rfl, -⟩
            · obtain ⟨lab, hlab, hl⟩ := toUniAll_mem_inv ht part hpart
              rcases toUnicodeR_mem hl c hcc with hm | hge
              · exact Or.inl (hmem_parts lab (Or.inl hlab) c hm)
              · exact Or.inr hge
            · exact Or.inl hdot
          · obtain rfl := List.mem_singleton.mp hc1
            exact Or.inl hdot
      · rw [if_neg hlast] at h
        cases ht : toUniAll (pySplitDot input) with
        | error e => rw [ht] at h; exact absurd h (by simp)
        | ok outs =>
          rw [ht] at h
          dsimp only at h
          injection h with h
          subst h
          intro c hc
          rcases List.mem_append.mp hc with hc1 | hc1
          · rcases mem_intercalate_dot hc1 with ⟨part, hpart, hcc⟩ | ⟨rfl, hlen⟩
            · obtain ⟨lab, hlab, hl⟩ := toUniAll_mem_inv ht part hpart
              rcases toUnicodeR_mem hl c hcc with hm | hge
              · exact Or.inl (hmem_parts lab (Or.inr hlab) c hm)
              · exact Or.inr hge
            · left
              apply dot_mem_of_two_le
              have hlens := toUniAll_length ht
              omega
          · simp at hc1

theorem asciiIdna_mem {t u : List Char} (h : asciiIdna t = .ok u) :
    ∀ c ∈ u, c ∈ t ∨ 128 ≤ c.toNat := by
  unfold asciiIdna at h
  split at h
  · exact idnaDecode_mem h
  · exact absurd h (by simp)

theorem processLine_out_mem {line : List Char} {out : List (List Char)}
    (h : processLine line = .ok out) :
    ∀ t ∈ out, t = normLine line ∨ asciiIdna (normLine line) = .ok t := by
  rw [processLine_eq] at h
  by_cases hd : isData (normLine line) = false
  · rw [if_pos hd] at h
    injection h with h
    subst h
    simp
  · rw [if_neg hd] at h
    by_cases hxn : xnSeq.isPrefixOf (normLine line) = true
    · rw [if_pos (by simp [hxn])] at h
      cases ha : asciiIdna (normLine line) with
      | error e => rw [ha] at h; exact absurd h (by simp)
      | ok u =>
        rw [ha] at h
        injection h with h
        subst h
        intro t ht
        rcases List.mem_cons.mp ht with rfl | ht
        · exact Or.inl rfl
        · obtain rfl := List.mem_singleton.mp ht
          exact Or.inr rfl
    · rw [if_neg (by simp [hxn])] at h
      injection h with h
      subst h
      intro t ht
      obtain rfl := List.mem_singleton.mp ht
      exact Or.inl rfl

theorem processLines_mem_inv {lines L : List (List Char)}
    (h : processLines lines = .ok L) :
    ∀ t ∈ L, ∃ line ∈ lines,
      t = normLine line ∨ asciiIdna (normLine line) = .ok t := by
  induction lines generalizing L with
  | nil =>
    simp only [processLines] at h
    injection h with h
    subst h
    simp
  | cons a as ih =>
    obtain ⟨out, outs, ha, has, rfl⟩ := processLines_cons_inv h
    intro t ht
    rcases List.mem_append.mp ht with ht1 | ht1
    · exact ⟨a, by simp, processLine_out_mem ha t ht1⟩
    · obtain ⟨line, hline, hcase⟩ := ih has t ht1
      exact ⟨line, List.mem_cons_of_mem a hline, hcase⟩

theorem normLine_not_nl {doc line : List Char} (hline : line ∈ pySplitlines doc) :
    ∀ c ∈ normLine line, c.toNat ≠ 10 ∧ c.toNat ≠ 13 := by
  intro c hc
  obtain ⟨d, hd, rfl⟩ := List.mem_map.mp hc
  have hb : pyIsLineBoundary (pyCharLower d) = false := by
    rw [pyIsLineBoundary_pyCharLower]
    exact pySplitlines_not_boundary line hline d (mem_pyStrip hd)
  have hni := pyIsLineBoundary_iff (pyCharLower d)
  rw [hb] at hni
  simp only [Bool.false_eq_true, false_iff] at hni
  omega

/-- Every label emitted by a successful pass — directly or through
IDNA decoding — contains no `"\n"` and no `"\r"`. -/
theorem process_labels_not_nl {doc : List Char} {L : List (List Char)}
    (h : process doc = .ok L) :
    ∀ t ∈ L, ∀ c ∈ t, c.toNat ≠ 10 ∧ c.toNat ≠ 13 := by
  unfold process at h
  intro t ht c hc
  obtain ⟨line, hline, hcase⟩ := processLines_mem_inv h t ht
  rcases hcase with rfl | hdec
  · exact normLine_not_nl hline c hc
  · rcases asciiIdna_mem hdec c hc with hm | hge
    · exact normLine_not_nl hline c hm
    · omega

/-! ## The cache-file round trip -/

theorem univNewlines_no_cr {cs : List Char} (h : '\r' ∉ cs) :
    univNewlines cs = cs := by
  induction cs using univNewlines.induct with
  | case1 => rfl
  | case2 => exact absurd (by simp) h
  | case3 c hc => simp [univNewlines, hc]
  | case4 rest ih => exact absurd (by simp) h
  | case5 d rest hd ih => exact absurd (by simp) h
  | case6 c d rest hc ih =>
    have ih' := ih (fun hh => h (List.mem_cons_of_mem c hh))
    simp [univNewlines, hc, ih']

theorem fileLines_append {l : List Char} (hl : '\n' ∉ l) (cs : List Char) :
    fileLines (l ++ '\n' :: cs) = (l ++ ['\n']) :: fileLines cs := by
  induction l with
  | nil => simp [fileLines]
  | cons a l ih =>
    have ha : ¬ a = '\n' := fun hh => hl (by simp [hh])
    have ih' := ih (fun hh => hl (List.mem_cons_of_mem a hh))
    simp only [List.cons_append, fileLines, if_neg ha, List.append_eq, ih']

theorem dropWhile_no_sat {p : Char → Bool} {l : List Char}
    (h : ∀ c ∈ l, p c = false) : l.dropWhile p = l := by
  cases l with
  | nil => rfl
  | cons a as => simp [List.dropWhile, h a (by simp)]

theorem rstripNl_append {l : List Char} (h : '\n' ∉ l) :
    rstripNl (l ++ ['\n']) = l := by
  unfold rstripNl
  have : (l ++ ['\n']).reverse = '\n' :: l.reverse := by simp
  rw [this]
  rw [show List.dropWhile (fun c => c = '\n') ('\n' :: l.reverse) =
      List.dropWhile (fun c => c = '\n') l.reverse by simp [List.dropWhile]]
  rw [dropWhile_no_sat (fun c hc => by
    simp only [decide_eq_false_iff_not]
    intro hh
    exact h (by rw [← hh]; exact List.mem_reverse.mp hc))]
  exact List.reverse_reverse l

theorem readLines_writeContent {L : List (List Char)}
    (h : ∀ t ∈ L, ∀ c ∈ t, c.toNat ≠ 10 ∧ c.toNat ≠ 13) :
    readLines (writeContent L) = L := by
  have hnocr : '\r' ∉ writeContent L := by
    intro hmem
    simp only [writeContent, List.mem_flatMap] at hmem
    obtain ⟨t, ht, hin⟩ := hmem
    rcases List.mem_append.mp hin with hin | hin
    · exact (h t ht _ hin).2 rfl
    · simp at hin
  unfold readLines
  rw [univNewlines_no_cr hnocr]
  have hfl : ∀ (M : List (List Char)),
      (∀ t ∈ M, ∀ c ∈ t, c.toNat ≠ 10 ∧ c.toNat ≠ 13) →
      fileLines (writeContent M) = M.map (fun t => t ++ ['\n']) := by
    intro M
    induction M with
    | nil => intro _; rfl
    | cons t M ih =>
      intro hM
      have hnn : '\n' ∉ t := fun hmem => (hM t (by simp) _ hmem).1 rfl
      have hj : writeContent (t :: M) = t ++ '\n' :: writeContent M := by
        simp [writeContent]
      rw [hj, fileLines_append hnn, ih (fun u hu => hM u (by simp [hu]))]
      rfl
  rw [hfl L h, List.map_map]
  conv_rhs => rw [← List.map_id L]
  apply List.map_congr_left
  intro t ht
  simp only [Function.comp, id]
  exact rstripNl_append (fun hmem => (h t ht _ hmem).1 rfl)

/-- C4: after a successful `tlds_update` returning `L`, the cache file
holds exactly one label per line with a trailing newline after each,
and an independent cache read returns a list equal to `L`, in the
same order. -/
theorem claim4_write_read_roundtrip (w : World) (L : List (List Char)) (w' : World)
    (h : tlds_update w = (.ok L, w')) :
    w'.tldsList = .present (writeContent L) ∧
    cacheRead w'.tldsList = .ok L := by
  cases hr : w.remote with
  | error ne => simp [tlds_update, hr] at h
  | ok body =>
    cases hp : process body with
    | error e => simp [tlds_update, hr, hp] at h
    | ok tlds =>
      simp only [tlds_update, hr, hp] at h
      injection h with h1 h2
      injection h1 with h1
      subst h1
      subst h2
      refine ⟨rfl, ?_⟩
      show Except.ok (readLines (writeContent tlds)) = Except.ok tlds
      rw [readLines_writeContent (process_labels_not_nl hp)]

theorem claim4_witness :
    (tlds_update ⟨.absent, .ok (chars "COM\nxn--tda\n"), 0⟩).2.tldsList =
      .present (writeContent [chars "com", chars "xn--tda", chars "ü"]) ∧
    cacheRead (tlds_update ⟨.absent, .ok (chars "COM\nxn--tda\n"), 0⟩).2.tldsList =
      .ok [chars "com", chars "xn--tda", chars "ü"] :=
  claim4_write_read_roundtrip ⟨.absent, .ok (chars "COM\nxn--tda\n"), 0⟩
    [chars "com", chars "xn--tda", chars "ü"]
    (tlds_update ⟨.absent, .ok (chars "COM\nxn--tda\n"), 0⟩).2 rfl

theorem claim10_witness :
    ([chars "a", chars "xn--tda", chars "ü"] : List (List Char)).length =
      (dataLabels (chars "a\nxn--tda\n# c\n")).length +
      ((dataLabels (chars "a\nxn--tda\n# c\n")).filter
        (fun t => xnSeq.isPrefixOf t)).length ∧
    (∀ line ∈ pySplitlines (chars "a\nxn--tda\n# c\n"), ∃ out,
      processLine line = .ok out ∧
      out.length =
        (if isData (normLine line) = false then 0
         else if xnSeq.isPrefixOf (normLine line) then 2 else 1)) :=
  claim10_label_count _ _ rfl

end ImgDl
